import Mathlib

/-!
Shallow embedding of the `sphynx/huffman` compressor (src/src/bits.rs and
src/src/main.rs) and proofs about it.

Conventions of the embedding:
* Rust `u8` byte values are `Nat` (with `< 256` side conditions where the
  Rust type system provides them), `usize` indices are `Nat`.
* Byte buffers (`&[u8]`, `Vec<u8>`) are `List Nat`.
* Rust `Option` is Lean `Option`.
* A Rust panic (`expect`, `unwrap`, i.e. an unconditional process abort) is
  modelled by the `PanicOr.panic` constructor carrying the panic message;
  `PanicOr.ok` is normal return.  The Rust functions `read_trie`,
  `read_decoded_data`, `write_encoded_data`, `compress` and `extract` have no
  error channel in their signatures, so `panic` is their only failure mode.
* The recursive `read_trie` is defined through a fuel-indexed version
  `read_trie_fuel` (the Rust recursion consumes at least one bit before each
  recursive call, so `remaining bits + 1` fuel always suffices; this is proved
  below as `read_trie_fuel_eq` / claim C10).
* Rust's `BinaryHeap` (a max-heap over the reversed `Ord` on `Node`, i.e. a
  min-heap on `freq`) is modelled by a list with `popMin` removing the first
  node of minimal `freq`.  Tie-breaking among equal frequencies is
  unspecified in the source (spec section 4.3); none of the proved claims
  depends on the tie-break choice.
* The `while heap.len() > 1` loop of `build_trie` is modelled by the
  fuel-indexed `buildLoopF`; each iteration shrinks the heap by one, so the
  initial heap length is always enough fuel (`buildLoopF_le_one`).
-/

namespace Huffman

/-- Outcome of a Rust computation that can abort the process:
`panic msg` models a Rust panic (from `expect`/`unwrap`), `ok` a normal
return. -/
inductive PanicOr (α : Type) where
  | panic (msg : String)
  | ok (val : α)
deriving DecidableEq

/-- Sequencing of two panic-capable computations (used only to state the
composition `extract (compress x)` in theorems). -/
def PanicOr.bind {α β : Type} (p : PanicOr α) (f : α → PanicOr β) : PanicOr β :=
  match p with
  | .panic m => .panic m
  | .ok a => f a

/-! ## bits.rs: BitReader -/

/-- `BitReader<'a> { data: &'a [u8], ix: usize }`. -/
structure BitReader where
  data : List Nat
  ix : Nat
deriving DecidableEq

/-- `BitReader::new`. -/
def BitReader.new (data : List Nat) : BitReader := ⟨data, 0⟩

/-- `BitReader::byte_ix`. -/
def BitReader.byte_ix (r : BitReader) : Nat := r.ix / 8

/-- `BitReader::bit_ix` (0 = least significant bit, 7 = most significant). -/
def BitReader.bit_ix (r : BitReader) : Nat := 7 - r.ix % 8

/-- `BitReader::read_bit`.  Returns the read bit (if any) and the reader
state after the call. -/
def BitReader.read_bit (r : BitReader) : Option Bool × BitReader :=
  if r.byte_ix < r.data.length then
    let byte := r.data.getD r.byte_ix 0
    (some (decide (0 < byte &&& (1 <<< r.bit_ix))), ⟨r.data, r.ix + 1⟩)
  else
    (none, r)

/-- The `for _ in 0..n` loop of `BitReader::read_bits`, with `res` the
accumulator.  On `None` from `read_bit` the loop returns early (bits read so
far stay consumed). -/
def BitReader.read_bits_go : BitReader → Nat → Nat → Option Nat × BitReader
  | r, 0, res => (some res, r)
  | r, n + 1, res =>
    match r.read_bit with
    | (some b, r') => BitReader.read_bits_go r' n ((res <<< 1) ||| (if b then 1 else 0))
    | (none, r') => (none, r')

/-- `BitReader::read_bits` (the source asserts `n <= 8`; all call sites pass
8, and the claims below only concern `n ≤ 8`). -/
def BitReader.read_bits (r : BitReader) (n : Nat) : Option Nat × BitReader :=
  BitReader.read_bits_go r n 0

/-- `BitReader::read_u32_be`: four `read_bits(8)` calls, the loop unrolled,
assembled as `u32::from_be_bytes`. -/
def BitReader.read_u32_be (r : BitReader) : Option Nat × BitReader :=
  match r.read_bits 8 with
  | (none, r0) => (none, r0)
  | (some b0, r0) =>
    match r0.read_bits 8 with
    | (none, r1) => (none, r1)
    | (some b1, r1) =>
      match r1.read_bits 8 with
      | (none, r2) => (none, r2)
      | (some b2, r2) =>
        match r2.read_bits 8 with
        | (none, r3) => (none, r3)
        | (some b3, r3) =>
          (some (b0 * 16777216 + b1 * 65536 + b2 * 256 + b3), r3)

/-! ## bits.rs: BitWriter -/

/-- `BitWriter { buf: Vec<u8>, ix: usize }`. -/
structure BitWriter where
  buf : List Nat
  ix : Nat
deriving DecidableEq

/-- `BitWriter::new`. -/
def BitWriter.new : BitWriter := ⟨[], 0⟩

/-- `BitWriter::dump`. -/
def BitWriter.dump (w : BitWriter) : List Nat := w.buf

/-- `BitWriter::is_full`: `ix >= buf.len() * 8`. -/
def BitWriter.is_full (w : BitWriter) : Bool := decide (8 * w.buf.length ≤ w.ix)

/-- `BitWriter::write_bit`: push a fresh zero byte when full, then set or
clear bit `7 - ix % 8` of byte `ix / 8` (`|=` mask resp. `&= !mask` on `u8`,
where `!mask = 255 ^^^ mask`). -/
def BitWriter.write_bit (w : BitWriter) (bit : Bool) : BitWriter :=
  let buf1 := if w.is_full then w.buf ++ [0] else w.buf
  let old := buf1.getD (w.ix / 8) 0
  let nb :=
    if bit then old ||| (1 <<< (7 - w.ix % 8))
    else old &&& (255 ^^^ (1 <<< (7 - w.ix % 8)))
  ⟨buf1.set (w.ix / 8) nb, w.ix + 1⟩

/-- `BitWriter::write_bits`: `for offset in (0..num_of_bits).rev()` emit bit
`(data >> offset) & 1`. -/
def BitWriter.write_bits : BitWriter → Nat → Nat → BitWriter
  | w, 0, _ => w
  | w, n + 1, data => (w.write_bit (((data >>> n) &&& 1) == 1)).write_bits n data

/-- `BitWriter::write_u32_be`: the four bytes of `x.to_be_bytes()`, most
significant first, each via `write_bits 8`. -/
def BitWriter.write_u32_be (w : BitWriter) (x : Nat) : BitWriter :=
  ((((w.write_bits 8 ((x >>> 24) &&& 255)).write_bits 8
      ((x >>> 16) &&& 255)).write_bits 8 ((x >>> 8) &&& 255)).write_bits 8 (x &&& 255))

/-! ## main.rs: Node, frequency table, trie construction -/

/-- `struct Node { byte: u8, freq: usize, children: Option<Box<(Node, Node)>> }`,
rendered as an inductive: `leaf` is `children == None`, `internal` is
`children == Some`.  (`Node::merge` always stores `byte = 0` on internal
nodes; the `byte` field of an internal node is never read.) -/
inductive Node where
  | leaf (byte : Nat) (freq : Nat)
  | internal (byte : Nat) (freq : Nat) (left : Node) (right : Node)
deriving DecidableEq

/-- The `freq` field. -/
def Node.freq : Node → Nat
  | .leaf _ f => f
  | .internal _ f _ _ => f

/-- `Node::merge`. -/
def Node.merge (l r : Node) : Node := .internal 0 (l.freq + r.freq) l r

/-- `freq_table`: count occurrences of each byte value (the Rust
`[usize; 256]` array is modelled as a function). -/
def freq_table (data : List Nat) : Nat → Nat :=
  data.foldl (fun counter b => Function.update counter b (counter b + 1)) (fun _ => 0)

/-- Model of `BinaryHeap::pop` on the min-heap of nodes: remove the first
node of minimal `freq` (ties resolved towards the front; the source leaves
the tie-break unspecified). -/
def popMin : List Node → Option (Node × List Node)
  | [] => none
  | n :: rest =>
    match popMin rest with
    | none => some (n, [])
    | some (m, rest') => if n.freq ≤ m.freq then some (n, rest) else some (m, n :: rest')

/-- The initial heap of `build_trie`: one leaf per byte value in `0..256`
with a positive count. -/
def initialHeap (ft : Nat → Nat) : List Node :=
  ((List.range 256).filter (fun b => 0 < ft b)).map (fun b => Node.leaf b (ft b))

/-- The `while heap.len() > 1` loop of `build_trie`, fuel-indexed: pop the
two smallest nodes, push their merge.  Each iteration shrinks the heap by
one, so fuel `h.length` always suffices (`buildLoopF_le_one`). -/
def buildLoopF : Nat → List Node → List Node
  | 0, h => h
  | fuel + 1, h =>
    if 1 < h.length then
      match popMin h with
      | none => h
      | some (l, h1) =>
        match popMin h1 with
        | none => h1
        | some (r, h2) => buildLoopF fuel (h2 ++ [Node.merge l r])
    else h

/-- `build_trie`: run the merge loop, then `heap.pop().unwrap_or(Node::leaf(0, 0))`. -/
def build_trie (ft : Nat → Nat) : Node :=
  match popMin (buildLoopF (initialHeap ft).length (initialHeap ft)) with
  | some (n, _) => n
  | none => Node.leaf 0 0

/-! ## main.rs: trie serialization -/

/-- `write_trie`: pre-order; `1` + 8 bits of the byte for a leaf, `0` then
both subtrees for an internal node. -/
def write_trie : BitWriter → Node → BitWriter
  | w, .leaf b _ => (w.write_bit true).write_bits 8 b
  | w, .internal _ _ l r => write_trie (write_trie (w.write_bit false) l) r

/-- `read_trie`, fuel-indexed (the source recursion consumes at least one
bit before each recursive call; see `read_trie_fuel_eq`).  The two `expect`
calls of the source are the two panics. -/
def read_trie_fuel : Nat → BitReader → PanicOr (Node × BitReader)
  | 0, _ => .panic "read_trie: out of fuel"
  | fuel + 1, r =>
    match r.read_bit with
    | (none, _) => .panic "read_trie: cant decode node type"
    | (some true, r1) =>
      match r1.read_bits 8 with
      | (none, _) => .panic "read_trie: cant read data from node"
      | (some byte, r2) => .ok (Node.leaf byte 0, r2)
    | (some false, r1) =>
      match read_trie_fuel fuel r1 with
      | .panic m => .panic m
      | .ok (left, r2) =>
        match read_trie_fuel fuel r2 with
        | .panic m => .panic m
        | .ok (right, r3) => .ok (Node.merge left right, r3)

/-- `read_trie`: the fuel `8 * |data| - ix + 1` strictly dominates the
number of remaining bits, so the fuel never runs out on the Rust execution
paths (`read_trie_fuel_eq`). -/
def read_trie (r : BitReader) : PanicOr (Node × BitReader) :=
  read_trie_fuel (8 * r.data.length - r.ix + 1) r

/-! ## main.rs: code table -/

/-- The inner `go` of `build_code`: record the accumulated path at a leaf,
otherwise recurse left with `path ++ [0]` then right with `path ++ [1]`
(the table is threaded through, left before right, as in the source). -/
def buildCodeGo : Node → List Nat → (Nat → Option (List Nat)) → (Nat → Option (List Nat))
  | .leaf b _, path, table => Function.update table b (some path)
  | .internal _ _ l r, path, table =>
    buildCodeGo r (path ++ [1]) (buildCodeGo l (path ++ [0]) table)

/-- `build_code`: start from the all-`None` table. -/
def build_code (trie : Node) : Nat → Option (List Nat) :=
  buildCodeGo trie [] (fun _ => none)

/-! ## main.rs: payload encode / decode -/

/-- The `for &b in code_entry` loop of `write_encoded_data`. -/
def writeCodeBits (w : BitWriter) (entry : List Nat) : BitWriter :=
  entry.foldl (fun w b => w.write_bit (b == 1)) w

/-- The `for &d in data` loop of `write_encoded_data`;
`code[d].as_ref().unwrap()` on a missing entry is a panic. -/
def writeDataLoop : BitWriter → List Nat → (Nat → Option (List Nat)) → PanicOr BitWriter
  | w, [], _ => .ok w
  | w, d :: ds, code =>
    match code d with
    | none => .panic "write_encoded_data: unwrap on missing code entry"
    | some entry => writeDataLoop (writeCodeBits w entry) ds code

/-- `write_encoded_data`: `writer.write_u32_be(data.len() as u32)` (the
`as u32` cast is reduction mod `2^32`), then each byte's code bits. -/
def write_encoded_data (w : BitWriter) (data : List Nat)
    (code : Nat → Option (List Nat)) : PanicOr BitWriter :=
  writeDataLoop (w.write_u32_be (data.length % 4294967296)) data code

/-- The inner `go` of `read_decoded_data`: walk the trie, one bit per
internal node (`1` right, `0` left), until a leaf; its `expect` is a panic. -/
def decodeGo : BitReader → Node → PanicOr (Nat × BitReader)
  | r, .leaf b _ => .ok (b, r)
  | r, .internal _ _ l rt =>
    match r.read_bit with
    | (none, _) => .panic "read_decoded_data: unexpected end of data"
    | (some true, r') => decodeGo r' rt
    | (some false, r') => decodeGo r' l

/-- The `(0..size).map(|_| go(..)).collect()` of `read_decoded_data`. -/
def decodeLoop : BitReader → Node → Nat → PanicOr (List Nat × BitReader)
  | r, _, 0 => .ok ([], r)
  | r, trie, n + 1 =>
    match decodeGo r trie with
    | .panic m => .panic m
    | .ok (b, r') =>
      match decodeLoop r' trie n with
      | .panic m => .panic m
      | .ok (bs, r'') => .ok (b :: bs, r'')

/-- `read_decoded_data`: read the 32-bit size (its `expect` is a panic),
then decode that many symbols. -/
def read_decoded_data (r : BitReader) (trie : Node) : PanicOr (List Nat) :=
  match r.read_u32_be with
  | (none, _) => .panic "decode_data: cant read size of data"
  | (some size, r1) =>
    match decodeLoop r1 trie size with
    | .panic m => .panic m
    | .ok (bs, _) => .ok bs

/-! ## main.rs: compress / extract -/

/-- `compress`. -/
def compress (data : List Nat) : PanicOr (List Nat) :=
  let freqs := freq_table data
  let trie := build_trie freqs
  let code := build_code trie
  let writer := write_trie BitWriter.new trie
  match write_encoded_data writer data code with
  | .panic m => .panic m
  | .ok w => .ok w.dump

/-- `extract`. -/
def extract (data : List Nat) : PanicOr (List Nat) :=
  match read_trie (BitReader.new data) with
  | .panic m => .panic m
  | .ok (trie, r1) => read_decoded_data r1 trie

/-! ## Specification-side abstractions (bit streams as `List Bool`) -/

/-- The `n` low bits of `x`, most significant first. -/
def bitsBE : Nat → Nat → List Bool
  | 0, _ => []
  | n + 1, x => x.testBit n :: bitsBE n x

/-- The value of a bit list read most-significant-first. -/
def valBE (L : List Bool) : Nat :=
  L.foldl (fun a b => 2 * a + (if b then 1 else 0)) 0

/-- Bit `i` of a byte buffer, in stream order (bit 7 of each byte first). -/
def bitAt (data : List Nat) (i : Nat) : Bool :=
  (data.getD (i / 8) 0).testBit (7 - i % 8)

/-- The whole bit stream of a byte buffer. -/
def bufBits (data : List Nat) : List Bool := (data.map (bitsBE 8)).flatten

/-- The bits a reader has not yet consumed. -/
def bitsFromR (r : BitReader) : List Bool := (bufBits r.data).drop r.ix

/-- The bits a writer has written so far. -/
def wbits (w : BitWriter) : List Bool := (List.range w.ix).map (bitAt w.buf)

/-- Writer well-formedness: the buffer holds between `ix` and `ix + 7` bits
(it grows one byte at a time, exactly when full). -/
def WInv (w : BitWriter) : Prop :=
  w.ix ≤ 8 * w.buf.length ∧ 8 * w.buf.length ≤ w.ix + 7

/-- The serialized bit stream of a trie (`write_trie` writes exactly this). -/
def trieBits : Node → List Bool
  | .leaf b _ => true :: bitsBE 8 b
  | .internal _ _ l r => false :: (trieBits l ++ trieBits r)

/-- The byte values at the leaves, in order. -/
def leafBytes : Node → List Nat
  | .leaf b _ => [b]
  | .internal _ _ l r => leafBytes l ++ leafBytes r

/-- Zero all frequencies (and internal `byte` fields): exactly what
deserialization reconstructs, since frequencies are not transmitted. -/
def eraseFreq : Node → Node
  | .leaf b _ => .leaf b 0
  | .internal _ _ l r => .internal 0 0 (eraseFreq l) (eraseFreq r)

/-- Structural equivalence: same shape and same leaf byte values in the same
positions (frequencies and internal `byte` fields ignored). -/
def sameShape : Node → Node → Bool
  | .leaf b1 _, .leaf b2 _ => b1 == b2
  | .internal _ _ l1 r1, .internal _ _ l2 r2 => sameShape l1 l2 && sameShape r1 r2
  | _, _ => false

/-- `leadsTo t p d`: following path `p` (0 = left, 1 = right) from the root
of `t` ends at a leaf with byte value `d`. -/
def leadsTo : Node → List Nat → Nat → Prop
  | .leaf b _, p, d => p = [] ∧ b = d
  | .internal _ _ _ _, [], _ => False
  | .internal _ _ l r, c :: p, d => (c = 0 ∧ leadsTo l p d) ∨ (c = 1 ∧ leadsTo r p d)

/-- A code entry (a list of 0/1 bytes) as bits, as written by
`write_encoded_data` (`write_bit(b == 1)`). -/
def entryBits (p : List Nat) : List Bool := p.map (fun b => b == 1)

/-- The payload bit stream: each byte's code bits in input order. -/
def codeBits (code : Nat → Option (List Nat)) (data : List Nat) : List Bool :=
  (data.map (fun d => entryBits ((code d).getD []))).flatten

/-- All leaf bytes of all heap nodes. -/
def heapLeaves (h : List Node) : List Nat := (h.map leafBytes).flatten

/-! ## Bit-twiddling helpers -/

lemma shiftLeft_one (a : Nat) : a <<< 1 = 2 * a := by
  rw [Nat.shiftLeft_eq]; ring

lemma one_shiftLeft_pow (k : Nat) : 1 <<< k = 2 ^ k := by
  rw [Nat.shiftLeft_eq, one_mul]

lemma or_low_bit (a b : Nat) (hb : b ≤ 1) : (2 * a) ||| b = 2 * a + b := by
  interval_cases b
  · simp
  · apply Nat.eq_of_testBit_eq
    intro i
    cases i with
    | zero =>
      simp [Nat.testBit_or, Nat.testBit_zero, Nat.mul_add_mod, Nat.mul_mod_right]
    | succ j =>
      rw [Nat.testBit_or]
      have h1 : Nat.testBit 1 (j + 1) = false := by
        rw [Nat.testBit_succ]
        norm_num
      rw [h1]
      simp only [Nat.testBit_succ]
      have e1 : 2 * a / 2 = a := by omega
      have e2 : (2 * a + 1) / 2 = a := by omega
      rw [e1, e2]
      simp

lemma decide_and_two_pow (n k : Nat) :
    decide (0 < n &&& (1 <<< k)) = n.testBit k := by
  rw [one_shiftLeft_pow, Nat.and_two_pow]
  cases h : n.testBit k <;> simp [h]

/-! ## `bitsBE` and `valBE` -/

@[simp] lemma bitsBE_length (n x : Nat) : (bitsBE n x).length = n := by
  induction n generalizing x with
  | zero => rfl
  | succ n ih => simp [bitsBE, ih]

lemma bitsBE_congr {n x y : Nat} (h : ∀ i, i < n → x.testBit i = y.testBit i) :
    bitsBE n x = bitsBE n y := by
  induction n with
  | zero => rfl
  | succ n ih =>
    simp only [bitsBE]
    rw [h n (by omega), ih (fun i hi => h i (by omega))]

lemma bitsBE_add (m n x : Nat) :
    bitsBE (m + n) x = bitsBE m (x >>> n) ++ bitsBE n x := by
  induction m with
  | zero => simp [bitsBE]
  | succ m ih =>
    have : m + 1 + n = (m + n) + 1 := by omega
    rw [this]
    simp only [bitsBE, ih, List.cons_append]
    rw [Nat.testBit_shiftRight, Nat.add_comm n m]

lemma bitsBE_and_255 (x : Nat) : bitsBE 8 (x &&& 255) = bitsBE 8 x := by
  apply bitsBE_congr
  intro i hi
  have h255 : (255 : Nat) = 2 ^ 8 - 1 := by norm_num
  rw [Nat.testBit_and, h255, Nat.testBit_two_pow_sub_one]
  simp [show i < 8 from hi]

lemma valBE_foldl (acc : Nat) (L : List Bool) :
    L.foldl (fun a b => 2 * a + (if b then 1 else 0)) acc =
      acc * 2 ^ L.length + valBE L := by
  induction L generalizing acc with
  | nil => simp [valBE]
  | cons b L ih =>
    simp only [List.foldl_cons, List.length_cons, valBE]
    rw [ih, ih (2 * 0 + (if b then 1 else 0))]
    ring

lemma valBE_append (A B : List Bool) :
    valBE (A ++ B) = valBE A * 2 ^ B.length + valBE B := by
  unfold valBE
  rw [List.foldl_append, valBE_foldl]
  rfl

lemma valBE_cons (b : Bool) (L : List Bool) :
    valBE (b :: L) = (if b then 1 else 0) * 2 ^ L.length + valBE L := by
  have : b :: L = [b] ++ L := rfl
  rw [this, valBE_append]
  congr 1
  cases b <;> rfl

lemma valBE_bitsBE (n x : Nat) : valBE (bitsBE n x) = x % 2 ^ n := by
  induction n with
  | zero => simp [bitsBE, valBE, Nat.mod_one]
  | succ n ih =>
    simp only [bitsBE]
    rw [valBE_cons, bitsBE_length, ih, Nat.mod_pow_succ]
    rw [Nat.testBit_to_div_mod]
    have : x / 2 ^ n % 2 = 0 ∨ x / 2 ^ n % 2 = 1 := by omega
    rcases this with h | h <;> simp [h] <;> ring

/-! ## `bufBits`, `bitAt`, `bitsFromR` -/

@[simp] lemma bufBits_nil : bufBits [] = [] := rfl

lemma bufBits_cons (d : Nat) (data : List Nat) :
    bufBits (d :: data) = bitsBE 8 d ++ bufBits data := by
  simp [bufBits]

lemma bufBits_append (l1 l2 : List Nat) :
    bufBits (l1 ++ l2) = bufBits l1 ++ bufBits l2 := by
  simp [bufBits]

@[simp] lemma bufBits_length (data : List Nat) :
    (bufBits data).length = 8 * data.length := by
  induction data with
  | nil => rfl
  | cons d data ih => simp [bufBits_cons, ih]; ring

lemma bitsBE_getD (n x i : Nat) (h : i < n) :
    (bitsBE n x).getD i false = x.testBit (n - 1 - i) := by
  induction n generalizing i with
  | zero => omega
  | succ n ih =>
    cases i with
    | zero => simp [bitsBE]
    | succ j =>
      simp only [bitsBE, List.getD_cons_succ]
      rw [ih j (by omega)]
      congr 1
      omega

lemma bufBits_getD (data : List Nat) (i : Nat) (h : i < 8 * data.length) :
    (bufBits data).getD i false = bitAt data i := by
  induction data generalizing i with
  | nil => simp at h
  | cons d data ih =>
    rw [bufBits_cons]
    by_cases hi : i < 8
    · rw [List.getD_append _ _ _ _ (by simpa using hi)]
      rw [bitsBE_getD 8 d i hi]
      simp only [bitAt]
      rw [Nat.div_eq_of_lt hi, Nat.mod_eq_of_lt hi]
      simp
    · have h8 : 8 ≤ i := by omega
      rw [List.getD_append_right _ _ _ _ (by simpa using h8)]
      simp only [bitsBE_length]
      rw [ih (i - 8) (by simp at h ⊢; omega)]
      simp only [bitAt]
      obtain ⟨q, hq⟩ : ∃ q, i / 8 = q + 1 := ⟨i / 8 - 1, by omega⟩
      have hdiv : (i - 8) / 8 = q := by omega
      have hmod : (i - 8) % 8 = i % 8 := by omega
      rw [hdiv, hmod, hq]
      simp [List.getD_cons_succ]

lemma bitsFromR_length (r : BitReader) :
    (bitsFromR r).length = 8 * r.data.length - r.ix := by
  simp [bitsFromR]

lemma bitsFromR_add (r : BitReader) (k : Nat) :
    bitsFromR ⟨r.data, r.ix + k⟩ = (bitsFromR r).drop k := by
  simp [bitsFromR, List.drop_drop]

lemma bitsFromR_advance {r : BitReader} {L rest : List Bool}
    (h : bitsFromR r = L ++ rest) :
    bitsFromR ⟨r.data, r.ix + L.length⟩ = rest := by
  rw [bitsFromR_add, h, List.drop_left]

/-! ## Reader lemmas -/

lemma read_bit_eq_some (r : BitReader) (h : r.ix < 8 * r.data.length) :
    r.read_bit = (some (bitAt r.data r.ix), ⟨r.data, r.ix + 1⟩) := by
  unfold BitReader.read_bit
  rw [if_pos]
  · simp only [Prod.mk.injEq, and_true]
    rw [decide_and_two_pow]
    rfl
  · simp only [BitReader.byte_ix]
    omega

lemma read_bit_eq_none (r : BitReader) (h : 8 * r.data.length ≤ r.ix) :
    r.read_bit = (none, r) := by
  unfold BitReader.read_bit
  rw [if_neg]
  simp only [BitReader.byte_ix]
  omega

lemma read_bit_cons {r : BitReader} {b : Bool} {L : List Bool}
    (h : bitsFromR r = b :: L) :
    r.read_bit = (some b, ⟨r.data, r.ix + 1⟩) ∧ bitsFromR ⟨r.data, r.ix + 1⟩ = L := by
  have hlen : r.ix < 8 * r.data.length := by
    have := bitsFromR_length r
    rw [h] at this
    simp at this
    omega
  have hb : bitAt r.data r.ix = b := by
    have h0 : (bitsFromR r).getD 0 false = b := by rw [h]; rfl
    rw [bitsFromR] at h0
    rw [List.getD_eq_getElem?_getD, List.getElem?_drop, Nat.add_zero] at h0
    rw [← List.getD_eq_getElem?_getD, bufBits_getD _ _ (by omega)] at h0
    exact h0
  refine ⟨?_, ?_⟩
  · rw [read_bit_eq_some r hlen, hb]
  · have := @bitsFromR_advance r [b] L (by simpa using h)
    simpa using this

lemma read_bits_go_append {L : List Bool} :
    ∀ {r : BitReader} (acc : Nat) {rest : List Bool}, bitsFromR r = L ++ rest →
      r.read_bits_go L.length acc =
        (some (L.foldl (fun a b => 2 * a + (if b then 1 else 0)) acc),
          ⟨r.data, r.ix + L.length⟩) := by
  induction L with
  | nil =>
    intro r acc rest h
    simp [BitReader.read_bits_go]
  | cons b L ih =>
    intro r acc rest h
    have hc := read_bit_cons (by simpa using h)
    simp only [List.length_cons, BitReader.read_bits_go, hc.1]
    rw [shiftLeft_one, or_low_bit _ _ (by split <;> omega)]
    rw [ih _ (by rw [hc.2])]
    rw [show r.ix + 1 + L.length = r.ix + (L.length + 1) from by omega]
    simp [List.foldl_cons]

lemma read_bits_append {L rest : List Bool} {r : BitReader}
    (h : bitsFromR r = L ++ rest) :
    r.read_bits L.length = (some (valBE L), ⟨r.data, r.ix + L.length⟩) := by
  unfold BitReader.read_bits
  rw [read_bits_go_append 0 h]
  rfl

lemma read_bits_eq_some {r : BitReader} {n : Nat} (h : n ≤ (bitsFromR r).length) :
    r.read_bits n =
      (some (valBE ((bitsFromR r).take n)), ⟨r.data, r.ix + n⟩) := by
  have hsplit : bitsFromR r = (bitsFromR r).take n ++ (bitsFromR r).drop n := by
    simp
  have hlen : ((bitsFromR r).take n).length = n := by
    simp [Nat.min_eq_left h]
  have := read_bits_append (r := r) hsplit
  rw [hlen] at this
  exact this

lemma read_bits_go_none {n : Nat} :
    ∀ {r : BitReader} (acc : Nat), r.ix ≤ 8 * r.data.length →
      (bitsFromR r).length < n →
      r.read_bits_go n acc = (none, ⟨r.data, 8 * r.data.length⟩) := by
  induction n with
  | zero => intro r acc h1 h2; omega
  | succ n ih =>
    intro r acc h1 h2
    rw [bitsFromR_length] at h2
    by_cases hlt : r.ix < 8 * r.data.length
    · obtain ⟨b, L, hbl⟩ : ∃ b L, bitsFromR r = b :: L := by
        cases hbfr : bitsFromR r with
        | nil =>
          have := bitsFromR_length r
          rw [hbfr] at this
          simp at this
          omega
        | cons b L => exact ⟨b, L, rfl⟩
      have hc := read_bit_cons hbl
      simp only [BitReader.read_bits_go, hc.1]
      have hlen2 : (bitsFromR (⟨r.data, r.ix + 1⟩ : BitReader)).length <  n := by
        rw [bitsFromR_length]
        simp
        omega
      exact ih _ (by simp; omega) hlen2
    · have hge : 8 * r.data.length ≤ r.ix := by omega
      have heq : r.ix = 8 * r.data.length := by omega
      simp only [BitReader.read_bits_go, read_bit_eq_none r hge]
      rw [show r = (⟨r.data, 8 * r.data.length⟩ : BitReader) from by
        cases r; simp_all]

lemma read_bits_none {r : BitReader} {n : Nat} (h : r.ix ≤ 8 * r.data.length)
    (h2 : (bitsFromR r).length < n) :
    r.read_bits n = (none, ⟨r.data, 8 * r.data.length⟩) :=
  read_bits_go_none 0 h h2

lemma read_u32_append {A rest : List Bool} {r : BitReader} (hA : A.length = 32)
    (h : bitsFromR r = A ++ rest) :
    r.read_u32_be = (some (valBE A), ⟨r.data, r.ix + 32⟩) := by
  obtain ⟨A0, A1, A2, A3, h0, h1, h2, h3, hsplit⟩ :
      ∃ A0 A1 A2 A3 : List Bool, A0.length = 8 ∧ A1.length = 8 ∧ A2.length = 8 ∧
        A3.length = 8 ∧ A = A0 ++ (A1 ++ (A2 ++ A3)) := by
    refine ⟨A.take 8, (A.drop 8).take 8, ((A.drop 8).drop 8).take 8,
      ((A.drop 8).drop 8).drop 8, ?_, ?_, ?_, ?_, ?_⟩
    · simp [hA]
    · simp [hA]
    · simp [hA]
    · simp [hA]
    · rw [List.take_append_drop, List.take_append_drop, List.take_append_drop]
  subst hsplit
  have e0 : bitsFromR r = A0 ++ (A1 ++ (A2 ++ (A3 ++ rest))) := by
    rw [h]; simp [List.append_assoc]
  have s0 := read_bits_append (r := r) e0
  have a0 := bitsFromR_advance (r := r) e0
  rw [h0] at s0 a0
  have s1 := read_bits_append a0
  have a1 := bitsFromR_advance a0
  rw [h1] at s1 a1
  have s2 := read_bits_append a1
  have a2 := bitsFromR_advance a1
  rw [h2] at s2 a2
  have s3 := read_bits_append a2
  rw [h3] at s3
  simp only [BitReader.read_u32_be, s0, s1, s2, s3, Prod.mk.injEq, Option.some.injEq,
    BitReader.mk.injEq, true_and]
  refine ⟨?_, trivial⟩
  rw [valBE_append, valBE_append, valBE_append]
  simp only [List.length_append, h1, h2, h3]
  ring

lemma read_u32_none {r : BitReader} (h : r.ix ≤ 8 * r.data.length)
    (h2 : (bitsFromR r).length < 32) :
    r.read_u32_be = (none, ⟨r.data, 8 * r.data.length⟩) := by
  have hlen := bitsFromR_length r
  by_cases c0 : (bitsFromR r).length < 8
  · have n0 := read_bits_none h c0
    simp [BitReader.read_u32_be, n0]
  · push_neg at c0
    have s0 := read_bits_eq_some (r := r) c0
    have a0 := bitsFromR_add r 8
    have hl0 : (bitsFromR (⟨r.data, r.ix + 8⟩ : BitReader)).length = (bitsFromR r).length - 8 := by
      rw [a0]; simp
    by_cases c1 : (bitsFromR (⟨r.data, r.ix + 8⟩ : BitReader)).length < 8
    · have n1 := read_bits_none (r := ⟨r.data, r.ix + 8⟩) (by simp; omega) c1
      simp [BitReader.read_u32_be, s0, n1]
    · push_neg at c1
      have s1 := read_bits_eq_some (r := ⟨r.data, r.ix + 8⟩) c1
      have hl1 : (bitsFromR (⟨r.data, r.ix + 8 + 8⟩ : BitReader)).length = (bitsFromR r).length - 16 := by
        rw [show r.ix + 8 + 8 = r.ix + 16 from by omega, bitsFromR_add]
        simp
      by_cases c2 : (bitsFromR (⟨r.data, r.ix + 8 + 8⟩ : BitReader)).length < 8
      · have n2 := read_bits_none (r := ⟨r.data, r.ix + 8 + 8⟩) (by simp; omega) c2
        simp [BitReader.read_u32_be, s0, s1, n2]
      · push_neg at c2
        have s2 := read_bits_eq_some (r := ⟨r.data, r.ix + 8 + 8⟩) c2
        have hl2 : (bitsFromR (⟨r.data, r.ix + 8 + 8 + 8⟩ : BitReader)).length
            = (bitsFromR r).length - 24 := by
          rw [show r.ix + 8 + 8 + 8 = r.ix + 24 from by omega, bitsFromR_add]
          simp
        have c3 : (bitsFromR (⟨r.data, r.ix + 8 + 8 + 8⟩ : BitReader)).length < 8 := by omega
        have n3 := read_bits_none (r := ⟨r.data, r.ix + 8 + 8 + 8⟩) (by simp; omega) c3
        simp [BitReader.read_u32_be, s0, s1, s2, n3]

/-! ## List `set`/`getD` helpers -/

lemma getD_set_self (l : List Nat) (j v : Nat) (h : j < l.length) :
    (l.set j v).getD j 0 = v := by
  induction l generalizing j with
  | nil => simp at h
  | cons x l ih =>
    cases j with
    | zero => rfl
    | succ j => simpa using ih j (by simpa using h)

lemma getD_set_ne (l : List Nat) (i j v : Nat) (h : i ≠ j) :
    (l.set j v).getD i 0 = l.getD i 0 := by
  induction l generalizing i j with
  | nil => rfl
  | cons x l ih =>
    cases j with
    | zero =>
      cases i with
      | zero => exact absurd rfl h
      | succ i => rfl
    | succ j =>
      cases i with
      | zero => rfl
      | succ i => simpa using ih i j (by omega)

lemma set_append_length (l : List Nat) (a v : Nat) :
    (l ++ [a]).set l.length v = l ++ [v] := by
  induction l with
  | nil => rfl
  | cons x l ih => simpa using ih

/-! ## Writer lemmas -/

lemma testBit_setBit (old k m : Nat) (bit : Bool) (hm : m ≤ 7) :
    (if bit then old ||| (1 <<< k) else old &&& (255 ^^^ (1 <<< k))).testBit m =
      if m = k then bit else old.testBit m := by
  rw [one_shiftLeft_pow]
  cases bit with
  | true =>
    rw [if_pos rfl]
    rw [Nat.testBit_or, Nat.testBit_two_pow]
    by_cases h : m = k
    · rw [if_pos h, h]
      simp
    · rw [if_neg h]
      simp [show k ≠ m from fun hh => h hh.symm]
  | false =>
    rw [if_neg (by simp)]
    rw [Nat.testBit_and, Nat.testBit_xor, Nat.testBit_two_pow,
      show (255 : Nat) = 2 ^ 8 - 1 from by norm_num, Nat.testBit_two_pow_sub_one]
    by_cases h : m = k
    · rw [if_pos h, h]
      simp [show k < 8 from by omega]
    · rw [if_neg h]
      simp [show k ≠ m from fun hh => h hh.symm, show m < 8 from by omega]

lemma wbits_new : wbits BitWriter.new = [] := rfl

lemma WInv_new : WInv BitWriter.new := by
  constructor <;> simp [BitWriter.new]

lemma wbits_write_bit {w : BitWriter} (hw : WInv w) (b : Bool) :
    wbits (w.write_bit b) = wbits w ++ [b] ∧ WInv (w.write_bit b) := by
  obtain ⟨hw1, hw2⟩ := hw
  by_cases hf : 8 * w.buf.length ≤ w.ix
  · -- full: ix = 8 * len; push a zero byte, then set its top bit
    have hix : w.ix = 8 * w.buf.length := by omega
    have hj : w.ix / 8 = w.buf.length := by omega
    have hm0 : w.ix % 8 = 0 := by omega
    have hold : (w.buf ++ [0]).getD (w.ix / 8) 0 = 0 := by
      rw [hj, List.getD_append_right _ _ _ _ (le_refl _)]
      simp
    have hwb : w.write_bit b = ⟨w.buf ++ [if b then 0 ||| (1 <<< (7 - w.ix % 8))
        else 0 &&& (255 ^^^ (1 <<< (7 - w.ix % 8)))], w.ix + 1⟩ := by
      simp only [BitWriter.write_bit]
      rw [if_pos (show w.is_full = true from by
        unfold BitWriter.is_full; exact decide_eq_true hf)]
      rw [hold, hj, set_append_length]
    rw [hwb]
    refine ⟨?_, ?_, ?_⟩
    · show (List.range (w.ix + 1)).map _ = (List.range w.ix).map _ ++ [b]
      rw [List.range_succ, List.map_append]
      congr 1
      · apply List.map_congr_left
        intro i hi
        rw [List.mem_range] at hi
        simp only [bitAt]
        have hdiv : i / 8 < w.buf.length := by omega
        rw [List.getD_append _ _ _ _ hdiv]
      · simp only [List.map_cons, List.map_nil, List.cons.injEq, and_true]
        simp only [bitAt, hj]
        rw [List.getD_append_right _ _ _ _ (le_refl _), Nat.sub_self]
        simp only [List.getD_cons_zero]
        rw [testBit_setBit _ _ _ _ (by omega), if_pos (by omega)]
    · simp
      omega
    · simp
      omega
  · -- not full: set a bit inside the existing buffer
    have hix : w.ix < 8 * w.buf.length := by omega
    have hj : w.ix / 8 < w.buf.length := by omega
    have hwb : w.write_bit b = ⟨w.buf.set (w.ix / 8)
        (if b then w.buf.getD (w.ix / 8) 0 ||| (1 <<< (7 - w.ix % 8))
         else w.buf.getD (w.ix / 8) 0 &&& (255 ^^^ (1 <<< (7 - w.ix % 8)))), w.ix + 1⟩ := by
      simp only [BitWriter.write_bit]
      rw [if_neg (show ¬w.is_full = true from by
        unfold BitWriter.is_full; simpa using hf)]
    rw [hwb]
    refine ⟨?_, ?_, ?_⟩
    · show (List.range (w.ix + 1)).map _ = (List.range w.ix).map _ ++ [b]
      rw [List.range_succ, List.map_append]
      congr 1
      · apply List.map_congr_left
        intro i hi
        rw [List.mem_range] at hi
        simp only [bitAt]
        by_cases hij : i / 8 = w.ix / 8
        · rw [hij, getD_set_self _ _ _ hj]
          have d1 := Nat.div_add_mod i 8
          have d2 := Nat.div_add_mod w.ix 8
          have him : i % 8 < 8 := Nat.mod_lt _ (by norm_num)
          have hwm : w.ix % 8 < 8 := Nat.mod_lt _ (by norm_num)
          rw [testBit_setBit _ _ _ _ (by omega), if_neg (by omega)]
        · rw [getD_set_ne _ _ _ _ hij]
      · simp only [List.map_cons, List.map_nil, List.cons.injEq, and_true]
        simp only [bitAt]
        rw [getD_set_self _ _ _ hj]
        rw [testBit_setBit _ _ _ _ (by omega), if_pos rfl]
    · simp
      omega
    · simp
      omega

lemma beq_shift_testBit (d n : Nat) : (((d >>> n) &&& 1) == 1) = d.testBit n := by
  rw [Nat.and_one_is_mod, Nat.shiftRight_eq_div_pow, Nat.testBit_to_div_mod]
  by_cases h : d / 2 ^ n % 2 = 1
  · simp [h]
  · simp [h]

lemma wbits_write_bits {w : BitWriter} (hw : WInv w) (n d : Nat) :
    wbits (w.write_bits n d) = wbits w ++ bitsBE n d ∧ WInv (w.write_bits n d) := by
  induction n generalizing w with
  | zero => simpa [BitWriter.write_bits, bitsBE] using hw
  | succ n ih =>
    obtain ⟨e1, i1⟩ := wbits_write_bit hw (((d >>> n) &&& 1) == 1)
    obtain ⟨e2, i2⟩ := ih i1
    refine ⟨?_, i2⟩
    show wbits ((w.write_bit _).write_bits n d) = _
    rw [e2, e1, List.append_assoc]
    congr 1
    simp only [bitsBE, List.singleton_append, List.cons.injEq, and_true]
    exact beq_shift_testBit d n

lemma bitsBE_u32 (x : Nat) :
    bitsBE 8 ((x >>> 24) &&& 255) ++ (bitsBE 8 ((x >>> 16) &&& 255) ++
      (bitsBE 8 ((x >>> 8) &&& 255) ++ bitsBE 8 (x &&& 255))) = bitsBE 32 x := by
  rw [bitsBE_and_255, bitsBE_and_255, bitsBE_and_255, bitsBE_and_255]
  have e1 := bitsBE_add 8 24 x
  have e2 := bitsBE_add 8 16 x
  have e3 := bitsBE_add 8 8 x
  norm_num at e1 e2 e3
  rw [e1, e2, e3]

lemma wbits_write_u32 {w : BitWriter} (hw : WInv w) (x : Nat) :
    wbits (w.write_u32_be x) = wbits w ++ bitsBE 32 x ∧ WInv (w.write_u32_be x) := by
  obtain ⟨e1, i1⟩ := wbits_write_bits hw 8 ((x >>> 24) &&& 255)
  obtain ⟨e2, i2⟩ := wbits_write_bits i1 8 ((x >>> 16) &&& 255)
  obtain ⟨e3, i3⟩ := wbits_write_bits i2 8 ((x >>> 8) &&& 255)
  obtain ⟨e4, i4⟩ := wbits_write_bits i3 8 (x &&& 255)
  refine ⟨?_, i4⟩
  show wbits ((((w.write_bits 8 ((x >>> 24) &&& 255)).write_bits 8
      ((x >>> 16) &&& 255)).write_bits 8 ((x >>> 8) &&& 255)).write_bits 8 (x &&& 255)) = _
  rw [e4, e3, e2, e1, List.append_assoc, List.append_assoc, List.append_assoc]
  congr 1
  exact bitsBE_u32 x

lemma wbits_write_trie {w : BitWriter} (hw : WInv w) (t : Node) :
    wbits (write_trie w t) = wbits w ++ trieBits t ∧ WInv (write_trie w t) := by
  induction t generalizing w with
  | leaf b f =>
    obtain ⟨e1, i1⟩ := wbits_write_bit hw true
    obtain ⟨e2, i2⟩ := wbits_write_bits i1 8 b
    refine ⟨?_, i2⟩
    show wbits ((w.write_bit true).write_bits 8 b) = _
    rw [e2, e1, List.append_assoc]
    rfl
  | internal b f l r ihl ihr =>
    obtain ⟨e1, i1⟩ := wbits_write_bit hw false
    obtain ⟨e2, i2⟩ := ihl i1
    obtain ⟨e3, i3⟩ := ihr i2
    refine ⟨?_, i3⟩
    show wbits (write_trie (write_trie (w.write_bit false) l) r) = _
    rw [e3, e2, e1]
    simp [trieBits, List.append_assoc]

lemma wbits_writeCodeBits {w : BitWriter} (hw : WInv w) (p : List Nat) :
    wbits (writeCodeBits w p) = wbits w ++ entryBits p ∧ WInv (writeCodeBits w p) := by
  induction p generalizing w with
  | nil => simpa [writeCodeBits, entryBits] using hw
  | cons c p ih =>
    obtain ⟨e1, i1⟩ := wbits_write_bit hw (c == 1)
    obtain ⟨e2, i2⟩ := ih i1
    refine ⟨?_, i2⟩
    show wbits (writeCodeBits (w.write_bit (c == 1)) p) = _
    rw [e2, e1, List.append_assoc]
    rfl

lemma writeDataLoop_ok {code : Nat → Option (List Nat)} {ds : List Nat} :
    ∀ {w : BitWriter}, WInv w → (∀ d ∈ ds, code d ≠ none) →
      ∃ w', writeDataLoop w ds code = .ok w' ∧
        wbits w' = wbits w ++ codeBits code ds ∧ WInv w' := by
  induction ds with
  | nil =>
    intro w hw _
    exact ⟨w, rfl, by simp [codeBits], hw⟩
  | cons d ds ih =>
    intro w hw hcode
    obtain ⟨p, hp⟩ : ∃ p, code d = some p := by
      cases hc : code d with
      | none => exact absurd hc (hcode d (by simp))
      | some p => exact ⟨p, rfl⟩
    obtain ⟨e1, i1⟩ := wbits_writeCodeBits hw p
    obtain ⟨w', hw', e2, i2⟩ := ih i1 (fun x hx => hcode x (by simp [hx]))
    refine ⟨w', ?_, ?_, i2⟩
    · simp [writeDataLoop, hp, hw']
    · rw [e2, e1, List.append_assoc]
      congr 1
      simp [codeBits, hp, entryBits]

lemma take_bufBits (w : BitWriter) (hw : WInv w) :
    (bufBits w.buf).take w.ix = wbits w := by
  obtain ⟨hw1, hw2⟩ := hw
  apply List.ext_getElem
  · simp [wbits]
    omega
  · intro i h1 h2
    rw [List.getElem_take]
    simp only [wbits, List.getElem_map, List.getElem_range]
    have hib : i < (bufBits w.buf).length := by
      simp at h1 ⊢
      omega
    rw [← List.getD_eq_getElem (bufBits w.buf) false hib]
    exact bufBits_getD w.buf i (by simpa using hib)

lemma bufBits_decomp (w : BitWriter) (hw : WInv w) :
    bufBits w.buf = wbits w ++ (bufBits w.buf).drop w.ix := by
  conv_lhs => rw [← List.take_append_drop w.ix (bufBits w.buf)]
  rw [take_bufBits w hw]

/-! ## Reader state lemmas -/

lemma read_bit_some_state {r r' : BitReader} {b : Bool}
    (h : r.read_bit = (some b, r')) :
    r'.data = r.data ∧ r'.ix = r.ix + 1 ∧ r.ix < 8 * r.data.length := by
  unfold BitReader.read_bit at h
  split at h
  · simp only [Prod.mk.injEq] at h
    rename_i hc
    simp only [BitReader.byte_ix] at hc
    rw [← h.2]
    exact ⟨rfl, rfl, by omega⟩
  · simp at h

lemma read_bit_none_state {r r' : BitReader}
    (h : r.read_bit = (none, r')) : r' = r ∧ 8 * r.data.length ≤ r.ix := by
  unfold BitReader.read_bit at h
  split at h
  · simp at h
  · simp only [Prod.mk.injEq] at h
    rename_i hc
    simp only [BitReader.byte_ix] at hc
    exact ⟨h.2.symm, by omega⟩

lemma read_bits_go_some_state {n : Nat} :
    ∀ {r : BitReader} {acc v : Nat} {r' : BitReader},
      r.read_bits_go n acc = (some v, r') →
      r'.data = r.data ∧ r'.ix = r.ix + n ∧ (n = 0 ∨ r'.ix ≤ 8 * r.data.length) := by
  induction n with
  | zero =>
    intro r acc v r' h
    simp only [BitReader.read_bits_go, Prod.mk.injEq] at h
    rw [← h.2]
    exact ⟨rfl, rfl, Or.inl rfl⟩
  | succ n ih =>
    intro r acc v r' h
    simp only [BitReader.read_bits_go] at h
    cases hb : r.read_bit with
    | mk ob r1 =>
      rw [hb] at h
      cases ob with
      | none => simp at h
      | some b =>
        simp only at h
        have hs := read_bit_some_state hb
        obtain ⟨hd, hix, hlt⟩ := hs
        obtain ⟨hd2, hix2, hb2⟩ := ih h
        refine ⟨by rw [hd2, hd], by omega, Or.inr ?_⟩
        rcases hb2 with h0 | hb2
        · subst h0
          rw [hd] at hd2
          omega
        · rw [hd] at hd2 hb2
          omega

lemma read_bits_some_state {r r' : BitReader} {n v : Nat}
    (h : r.read_bits n = (some v, r')) :
    r'.data = r.data ∧ r'.ix = r.ix + n ∧ (n = 0 ∨ r'.ix ≤ 8 * r.data.length) :=
  read_bits_go_some_state h

/-! ## Trie (de)serialization lemmas -/

@[simp] lemma eraseFreq_freq (t : Node) : (eraseFreq t).freq = 0 := by
  cases t <;> rfl

lemma trieBits_len_pos (t : Node) : 1 ≤ (trieBits t).length := by
  cases t <;> simp [trieBits]

lemma read_trie_fuel_progress {fuel : Nat} :
    ∀ {r : BitReader} {t : Node} {r' : BitReader},
      read_trie_fuel fuel r = .ok (t, r') →
      r'.data = r.data ∧ r.ix < r'.ix ∧ r'.ix ≤ 8 * r.data.length := by
  induction fuel with
  | zero =>
    intro r t r' h
    exact PanicOr.noConfusion h
  | succ fuel ih =>
    intro r t r' h
    simp only [read_trie_fuel] at h
    split at h
    · exact PanicOr.noConfusion h
    · -- leaf branch
      rename_i r1 hb
      split at h
      · exact PanicOr.noConfusion h
      · rename_i byte r2 hbs
        simp only [PanicOr.ok.injEq, Prod.mk.injEq] at h
        obtain ⟨-, h2⟩ := h
        subst h2
        obtain ⟨hd1, hx1, hlt⟩ := read_bit_some_state hb
        obtain ⟨hd2, hx2, hb2⟩ := read_bits_some_state hbs
        rcases hb2 with h8 | hb2
        · omega
        · rw [hd1] at hd2 hb2
          exact ⟨hd2, by omega, hb2⟩
    · -- internal branch
      rename_i r1 hb
      split at h
      · exact PanicOr.noConfusion h
      · rename_i left r2 hl
        split at h
        · exact PanicOr.noConfusion h
        · rename_i right r3 hr
          simp only [PanicOr.ok.injEq, Prod.mk.injEq] at h
          obtain ⟨-, h3⟩ := h
          subst h3
          obtain ⟨hd1, hx1, hlt⟩ := read_bit_some_state hb
          obtain ⟨hd2, hx2, hb2⟩ := ih hl
          obtain ⟨hd3, hx3, hb3⟩ := ih hr
          rw [hd2, hd1] at hb3 hd3
          exact ⟨hd3, by omega, hb3⟩

lemma read_trie_fuel_irrel {f1 : Nat} :
    ∀ {f2 : Nat} {r : BitReader}, 8 * r.data.length - r.ix < f1 →
      8 * r.data.length - r.ix < f2 →
      read_trie_fuel f1 r = read_trie_fuel f2 r := by
  induction f1 with
  | zero => intro f2 r h1 h2; omega
  | succ f1 ih =>
    intro f2 r h1 h2
    cases f2 with
    | zero => omega
    | succ f2 =>
      simp only [read_trie_fuel]
      cases hb : r.read_bit with
      | mk ob r1 =>
        cases ob with
        | none => rfl
        | some b =>
          cases b with
          | true => rfl
          | false =>
            obtain ⟨hd1, hx1, hlt⟩ := read_bit_some_state hb
            have hrem1 : 8 * r1.data.length - r1.ix < f1 := by rw [hd1]; omega
            have hrem2 : 8 * r1.data.length - r1.ix < f2 := by rw [hd1]; omega
            dsimp only
            rw [ih hrem1 hrem2]
            cases hl : read_trie_fuel f2 r1 with
            | panic m => rfl
            | ok p =>
              obtain ⟨left, r2⟩ := p
              obtain ⟨hd2, hx2, hb2⟩ := read_trie_fuel_progress hl
              rw [hd1] at hd2 hb2
              have hrem1a : 8 * r2.data.length - r2.ix < f1 := by rw [hd2]; omega
              have hrem2a : 8 * r2.data.length - r2.ix < f2 := by rw [hd2]; omega
              dsimp only
              rw [ih hrem1a hrem2a]

lemma read_trie_fuel_eq {fuel : Nat} {r : BitReader}
    (h : 8 * r.data.length - r.ix < fuel) :
    read_trie_fuel fuel r = read_trie r :=
  read_trie_fuel_irrel h (by omega)

lemma read_trie_bits {t : Node} :
    ∀ (fuel : Nat) {r : BitReader} {rest : List Bool},
      (∀ b ∈ leafBytes t, b < 256) →
      bitsFromR r = trieBits t ++ rest →
      (trieBits t).length ≤ fuel →
      read_trie_fuel fuel r =
        .ok (eraseFreq t, ⟨r.data, r.ix + (trieBits t).length⟩) := by
  induction t with
  | leaf b f =>
    intro fuel r rest hlt hbits hfuel
    obtain ⟨fuel, rfl⟩ : ∃ g, fuel = g + 1 := by
      cases fuel
      · simp [trieBits] at hfuel
      · exact ⟨_, rfl⟩
    have hc := read_bit_cons (show bitsFromR r = true :: (bitsBE 8 b ++ rest) by
      simpa [trieBits] using hbits)
    have h8 := @read_bits_append (bitsBE 8 b) rest ⟨r.data, r.ix + 1⟩ hc.2
    rw [bitsBE_length] at h8
    simp only [read_trie_fuel, hc.1, h8]
    have hb256 : b < 256 := hlt b (by simp [leafBytes])
    rw [valBE_bitsBE, Nat.mod_eq_of_lt (show b < 2 ^ 8 by omega)]
    have hstep : r.ix + 1 + 8 = r.ix + (trieBits (Node.leaf b f)).length := by
      simp [trieBits]
    rw [hstep]
    rfl
  | internal nb nf l rt ihl ihr =>
    intro fuel r rest hlt hbits hfuel
    obtain ⟨fuel, rfl⟩ : ∃ g, fuel = g + 1 := by
      cases fuel
      · simp [trieBits] at hfuel
      · exact ⟨_, rfl⟩
    have hc := read_bit_cons (show bitsFromR r = false :: (trieBits l ++ (trieBits rt ++ rest)) by
      simpa [trieBits, List.append_assoc] using hbits)
    have hposl := trieBits_len_pos l
    have hposr := trieBits_len_pos rt
    have hlen : (trieBits l).length + (trieBits rt).length + 1 ≤ fuel + 1 := by
      simpa [trieBits] using hfuel
    have hl := ihl fuel (fun x hx => hlt x (by simp [leafBytes, hx]))
      hc.2 (by omega)
    have hc2 : bitsFromR ⟨r.data, r.ix + 1 + (trieBits l).length⟩ = trieBits rt ++ rest := by
      have := bitsFromR_advance (r := ⟨r.data, r.ix + 1⟩) hc.2
      simpa using this
    have hr := ihr fuel (fun x hx => hlt x (by simp [leafBytes, hx]))
      hc2 (by omega)
    simp only [read_trie_fuel, hc.1, hl, hr]
    simp only [Node.merge, eraseFreq, eraseFreq_freq, trieBits, List.length_cons,
      List.length_append, PanicOr.ok.injEq, Prod.mk.injEq, BitReader.mk.injEq, true_and]
    omega

lemma read_trie_of_bits {t : Node} {r : BitReader} {rest : List Bool}
    (hlt : ∀ b ∈ leafBytes t, b < 256)
    (hbits : bitsFromR r = trieBits t ++ rest) :
    read_trie r = .ok (eraseFreq t, ⟨r.data, r.ix + (trieBits t).length⟩) := by
  have hpos := trieBits_len_pos t
  have hlen := bitsFromR_length r
  rw [hbits] at hlen
  simp only [List.length_append] at hlen
  rw [read_trie]
  exact read_trie_bits _ hlt hbits (by omega)

/-! ## Payload decode lemmas -/

@[simp] lemma entryBits_length (p : List Nat) : (entryBits p).length = p.length := by
  simp [entryBits]

lemma codeBits_cons (code : Nat → Option (List Nat)) (d : Nat) (ds : List Nat) :
    codeBits code (d :: ds) = entryBits ((code d).getD []) ++ codeBits code ds := by
  simp [codeBits]

lemma codeBits_append (code : Nat → Option (List Nat)) (l1 l2 : List Nat) :
    codeBits code (l1 ++ l2) = codeBits code l1 ++ codeBits code l2 := by
  simp [codeBits]

lemma decodeGo_leadsTo {t : Node} :
    ∀ {p : List Nat} {d : Nat} {r : BitReader} {rest : List Bool},
      leadsTo t p d → bitsFromR r = entryBits p ++ rest →
      decodeGo r t = .ok (d, ⟨r.data, r.ix + p.length⟩) := by
  induction t with
  | leaf b f =>
    intro p d r rest hlead hbits
    obtain ⟨rfl, rfl⟩ : p = [] ∧ b = d := hlead
    rfl
  | internal nb nf l rt ihl ihr =>
    intro p d r rest hlead hbits
    cases p with
    | nil => exact absurd hlead (by simp [leadsTo])
    | cons c p =>
      simp only [leadsTo] at hlead
      rcases hlead with ⟨hc, hlead⟩ | ⟨hc, hlead⟩
      · subst hc
        have hcons := read_bit_cons (show bitsFromR r = false :: (entryBits p ++ rest) by
          simpa [entryBits] using hbits)
        simp only [decodeGo, hcons.1]
        rw [ihl hlead hcons.2]
        simp only [List.length_cons, PanicOr.ok.injEq, Prod.mk.injEq,
          BitReader.mk.injEq, true_and]
        omega
      · subst hc
        have hcons := read_bit_cons (show bitsFromR r = true :: (entryBits p ++ rest) by
          simpa [entryBits] using hbits)
        simp only [decodeGo, hcons.1]
        rw [ihr hlead hcons.2]
        simp only [List.length_cons, PanicOr.ok.injEq, Prod.mk.injEq,
          BitReader.mk.injEq, true_and]
        omega

lemma decodeLoop_take {trie : Node} {code : Nat → Option (List Nat)} :
    ∀ (n : Nat) (ds : List Nat) (r : BitReader) (rest : List Bool),
      n ≤ ds.length →
      (∀ d ∈ ds, ∃ p, code d = some p ∧ leadsTo trie p d) →
      bitsFromR r = codeBits code ds ++ rest →
      ∃ r', decodeLoop r trie n = .ok (ds.take n, r') := by
  intro n
  induction n with
  | zero => intro ds r rest _ _ _; exact ⟨r, rfl⟩
  | succ n ih =>
    intro ds r rest hlen hcode hbits
    cases ds with
    | nil => simp at hlen
    | cons d ds =>
      obtain ⟨p, hp, hlead⟩ := hcode d (by simp)
      rw [codeBits_cons, hp, Option.getD_some, List.append_assoc] at hbits
      have hgo := decodeGo_leadsTo hlead hbits
      have hadv : bitsFromR ⟨r.data, r.ix + p.length⟩ = codeBits code ds ++ rest := by
        have := bitsFromR_advance (r := r) (L := entryBits p) hbits
        simpa using this
      obtain ⟨r', hloop⟩ := ih ds ⟨r.data, r.ix + p.length⟩ rest (by simpa using hlen)
        (fun x hx => hcode x (by simp [hx])) hadv
      refine ⟨r', ?_⟩
      simp [decodeLoop, hgo, hloop]

lemma decodeLoop_length {trie : Node} :
    ∀ {n : Nat} {r : BitReader} {bs : List Nat} {r' : BitReader},
      decodeLoop r trie n = .ok (bs, r') → bs.length = n := by
  intro n
  induction n with
  | zero =>
    intro r bs r' h
    simp only [decodeLoop, PanicOr.ok.injEq, Prod.mk.injEq] at h
    rw [← h.1]
    rfl
  | succ n ih =>
    intro r bs r' h
    simp only [decodeLoop] at h
    split at h
    · exact PanicOr.noConfusion h
    · rename_i b r1 hgo
      split at h
      · exact PanicOr.noConfusion h
      · rename_i bs1 r2 hloop
        simp only [PanicOr.ok.injEq, Prod.mk.injEq] at h
        rw [← h.1]
        simp [ih hloop]

/-! ## Code table lemmas -/

lemma buildCodeGo_spec {t : Node} :
    ∀ {pre : List Nat} {table : Nat → Option (List Nat)} {d : Nat} {p : List Nat},
      buildCodeGo t pre table d = some p →
      table d = some p ∨ ∃ suf, p = pre ++ suf ∧ leadsTo t suf d := by
  induction t with
  | leaf b f =>
    intro pre table d p h
    simp only [buildCodeGo] at h
    by_cases hd : b = d
    · subst hd
      rw [Function.update_same] at h
      right
      refine ⟨[], ?_, rfl, rfl⟩
      simpa using h.symm
    · rw [Function.update_noteq (fun hh => hd hh.symm)] at h
      left
      exact h
  | internal nb nf l rt ihl ihr =>
    intro pre table d p h
    simp only [buildCodeGo] at h
    rcases ihr h with htab | ⟨suf, hp, hlead⟩
    · rcases ihl htab with htab2 | ⟨suf, hp, hlead⟩
      · left
        exact htab2
      · right
        refine ⟨0 :: suf, ?_, Or.inl ⟨rfl, hlead⟩⟩
        rw [hp, List.append_assoc]
        rfl
    · right
      refine ⟨1 :: suf, ?_, Or.inr ⟨rfl, hlead⟩⟩
      rw [hp, List.append_assoc]
      rfl

lemma build_code_leadsTo {t : Node} {d : Nat} {p : List Nat}
    (h : build_code t d = some p) : leadsTo t p d := by
  rcases buildCodeGo_spec h with htab | ⟨suf, hp, hlead⟩
  · exact absurd htab (by simp)
  · rw [hp]
    simpa using hlead

lemma buildCodeGo_none_iff {t : Node} :
    ∀ {pre : List Nat} {table : Nat → Option (List Nat)} {d : Nat},
      buildCodeGo t pre table d = none ↔ table d = none ∧ d ∉ leafBytes t := by
  induction t with
  | leaf b f =>
    intro pre table d
    simp only [buildCodeGo, leafBytes]
    by_cases hd : d = b
    · subst hd
      rw [Function.update_same]
      simp
    · rw [Function.update_noteq hd]
      simp [hd]
  | internal nb nf l rt ihl ihr =>
    intro pre table d
    simp only [buildCodeGo, leafBytes, List.mem_append]
    rw [ihr, ihl]
    tauto

lemma build_code_none_iff {t : Node} {d : Nat} :
    build_code t d = none ↔ d ∉ leafBytes t := by
  unfold build_code
  rw [buildCodeGo_none_iff]
  simp

lemma leadsTo_eraseFreq {t : Node} :
    ∀ {p : List Nat} {d : Nat}, leadsTo t p d → leadsTo (eraseFreq t) p d := by
  induction t with
  | leaf b f =>
    intro p d h
    exact h
  | internal nb nf l rt ihl ihr =>
    intro p d h
    cases p with
    | nil => exact absurd h (by simp [leadsTo])
    | cons c p =>
      simp only [leadsTo, eraseFreq] at h ⊢
      rcases h with ⟨hc, h⟩ | ⟨hc, h⟩
      · exact Or.inl ⟨hc, ihl h⟩
      · exact Or.inr ⟨hc, ihr h⟩

lemma leadsTo_no_nested {t : Node} :
    ∀ {p1 p2 : List Nat} {d1 d2 : Nat},
      leadsTo t p1 d1 → leadsTo t p2 d2 → p1 <+: p2 → p1 = p2 ∧ d1 = d2 := by
  induction t with
  | leaf b f =>
    intro p1 p2 d1 d2 h1 h2 _
    obtain ⟨rfl, rfl⟩ := h1
    obtain ⟨rfl, rfl⟩ := h2
    exact ⟨rfl, rfl⟩
  | internal nb nf l rt ihl ihr =>
    intro p1 p2 d1 d2 h1 h2 hpre
    cases p1 with
    | nil => exact absurd h1 (by simp [leadsTo])
    | cons c1 p1 =>
      cases p2 with
      | nil => exact absurd h2 (by simp [leadsTo])
      | cons c2 p2 =>
        obtain ⟨hc, hpre2⟩ := List.cons_prefix_cons.mp hpre
        subst hc
        simp only [leadsTo] at h1 h2
        rcases h1 with ⟨hc1, h1⟩ | ⟨hc1, h1⟩ <;> rcases h2 with ⟨hc2, h2⟩ | ⟨hc2, h2⟩
        · obtain ⟨he, hd⟩ := ihl h1 h2 hpre2
          exact ⟨by rw [he], hd⟩
        · omega
        · omega
        · obtain ⟨he, hd⟩ := ihr h1 h2 hpre2
          exact ⟨by rw [he], hd⟩

/-! ## Heap and build_trie lemmas -/

@[simp] lemma heapLeaves_nil : heapLeaves [] = [] := rfl

lemma heapLeaves_cons (n : Node) (h : List Node) :
    heapLeaves (n :: h) = leafBytes n ++ heapLeaves h := by
  simp [heapLeaves]

lemma heapLeaves_append (h1 h2 : List Node) :
    heapLeaves (h1 ++ h2) = heapLeaves h1 ++ heapLeaves h2 := by
  simp [heapLeaves]

lemma leafBytes_merge (l r : Node) :
    leafBytes (Node.merge l r) = leafBytes l ++ leafBytes r := rfl

lemma popMin_cons_ne_none (x : Node) (xs : List Node) : popMin (x :: xs) ≠ none := by
  simp only [popMin]
  cases hpm : popMin xs with
  | none => simp
  | some p =>
    obtain ⟨m, rest⟩ := p
    dsimp only
    split <;> simp

lemma popMin_eq_none {h : List Node} : popMin h = none ↔ h = [] := by
  cases h with
  | nil => simp [popMin]
  | cons x xs => simp [popMin_cons_ne_none x xs]

lemma popMin_perm : ∀ {h : List Node} {n : Node} {h' : List Node},
    popMin h = some (n, h') → h.Perm (n :: h') := by
  intro h
  induction h with
  | nil =>
    intro n h' hp
    exact Option.noConfusion hp
  | cons x xs ih =>
    intro n h' hp
    simp only [popMin] at hp
    cases hpm : popMin xs with
    | none =>
      rw [hpm] at hp
      have hxs : xs = [] := popMin_eq_none.mp hpm
      subst hxs
      simp only [Option.some.injEq, Prod.mk.injEq] at hp
      obtain ⟨h1, h2⟩ := hp
      subst h1
      subst h2
      exact List.Perm.refl _
    | some p =>
      obtain ⟨m, rest⟩ := p
      rw [hpm] at hp
      dsimp only at hp
      split at hp
      · simp only [Option.some.injEq, Prod.mk.injEq] at hp
        obtain ⟨h1, h2⟩ := hp
        subst h1
        subst h2
        exact List.Perm.refl _
      · simp only [Option.some.injEq, Prod.mk.injEq] at hp
        obtain ⟨h1, h2⟩ := hp
        subst h1
        subst h2
        have hperm := ih hpm
        exact (hperm.cons x).trans (List.Perm.swap m x rest)

lemma mem_heapLeaves_iff {b : Nat} {h1 h2 : List Node} (hp : h1.Perm h2) :
    b ∈ heapLeaves h1 ↔ b ∈ heapLeaves h2 := by
  unfold heapLeaves
  simp only [List.mem_flatten, List.mem_map]
  constructor
  · rintro ⟨L, ⟨nd, hnd, rfl⟩, hb⟩
    exact ⟨leafBytes nd, ⟨nd, hp.mem_iff.mp hnd, rfl⟩, hb⟩
  · rintro ⟨L, ⟨nd, hnd, rfl⟩, hb⟩
    exact ⟨leafBytes nd, ⟨nd, hp.mem_iff.mpr hnd, rfl⟩, hb⟩

lemma buildLoopF_mem {fuel : Nat} :
    ∀ {h : List Node} {b : Nat},
      b ∈ heapLeaves (buildLoopF fuel h) ↔ b ∈ heapLeaves h := by
  induction fuel with
  | zero =>
    intro h b
    rfl
  | succ fuel ih =>
    intro h b
    simp only [buildLoopF]
    split
    · rename_i hlen
      cases hp1 : popMin h with
      | none => rfl
      | some p1 =>
        obtain ⟨l, h1⟩ := p1
        have e1 := popMin_perm hp1
        dsimp only
        cases hp2 : popMin h1 with
        | none =>
          have hnil : h1 = [] := popMin_eq_none.mp hp2
          subst hnil
          have hle := e1.length_eq
          simp at hle
          exact absurd hlen (by omega)
        | some p2 =>
          obtain ⟨r, h2⟩ := p2
          have e2 := popMin_perm hp2
          rw [ih, mem_heapLeaves_iff e1, heapLeaves_cons,
            heapLeaves_append, heapLeaves_cons]
          have e2m := mem_heapLeaves_iff (b := b) e2
          rw [heapLeaves_cons] at e2m
          simp only [List.mem_append, e2m, leafBytes_merge, heapLeaves_nil,
            List.append_nil, List.mem_append]
          tauto
    · rfl

lemma buildLoopF_length {fuel : Nat} :
    ∀ {h : List Node}, h.length ≤ fuel + 1 → (buildLoopF fuel h).length ≤ 1 := by
  induction fuel with
  | zero =>
    intro h hl
    simpa [buildLoopF] using hl
  | succ fuel ih =>
    intro h hl
    simp only [buildLoopF]
    split
    · rename_i hlen
      cases hp1 : popMin h with
      | none =>
        rw [popMin_eq_none.mp hp1] at hlen
        simp at hlen
      | some p1 =>
        obtain ⟨l, h1⟩ := p1
        have e1 := (popMin_perm hp1).length_eq
        simp at e1
        dsimp only
        cases hp2 : popMin h1 with
        | none =>
          rw [popMin_eq_none.mp hp2]
          simp
        | some p2 =>
          obtain ⟨r, h2⟩ := p2
          have e2 := (popMin_perm hp2).length_eq
          simp at e2
          apply ih
          simp
          omega
    · rename_i hlen
      omega

lemma buildLoopF_ne_nil {fuel : Nat} :
    ∀ {h : List Node}, h ≠ [] → buildLoopF fuel h ≠ [] := by
  induction fuel with
  | zero =>
    intro h hne
    simpa [buildLoopF] using hne
  | succ fuel ih =>
    intro h hne
    simp only [buildLoopF]
    split
    · rename_i hlen
      cases hp1 : popMin h with
      | none => exact hne
      | some p1 =>
        obtain ⟨l, h1⟩ := p1
        have e1 := (popMin_perm hp1).length_eq
        simp at e1
        dsimp only
        cases hp2 : popMin h1 with
        | none =>
          rw [popMin_eq_none.mp hp2] at e1
          simp at e1
          exact absurd hlen (by omega)
        | some p2 =>
          obtain ⟨r, h2⟩ := p2
          exact ih (by simp)
    · exact hne

lemma initialHeap_sub {ft : Nat → Nat} {b : Nat} :
    b ∈ heapLeaves (initialHeap ft) → b < 256 := by
  intro h
  simp only [heapLeaves, initialHeap, List.mem_flatten, List.mem_map] at h
  obtain ⟨L, ⟨nd, hnd, rfl⟩, hb⟩ := h
  obtain ⟨c, hc, rfl⟩ := hnd
  simp only [List.mem_filter, List.mem_range] at hc
  simp only [leafBytes, List.mem_singleton] at hb
  omega

lemma initialHeap_mem {ft : Nat → Nat} {b : Nat} (hb : b < 256) (hpos : 0 < ft b) :
    b ∈ heapLeaves (initialHeap ft) := by
  simp only [heapLeaves, initialHeap, List.mem_flatten, List.mem_map]
  refine ⟨leafBytes (Node.leaf b (ft b)), ⟨Node.leaf b (ft b), ?_, rfl⟩, by simp [leafBytes]⟩
  simp only [List.mem_map, List.mem_filter, List.mem_range]
  exact ⟨b, ⟨hb, by simpa using hpos⟩, rfl⟩

lemma build_trie_mem_of_pos {ft : Nat → Nat} {b : Nat} (hb : b < 256) (hpos : 0 < ft b) :
    b ∈ leafBytes (build_trie ft) := by
  have hmem : b ∈ heapLeaves (buildLoopF (initialHeap ft).length (initialHeap ft)) :=
    buildLoopF_mem.mpr (initialHeap_mem hb hpos)
  have hne : initialHeap ft ≠ [] := by
    intro hnil
    rw [hnil] at hmem
    simp [buildLoopF] at hmem
  have hne2 := @buildLoopF_ne_nil (initialHeap ft).length (initialHeap ft) hne
  have hlen := @buildLoopF_length (initialHeap ft).length (initialHeap ft) (by omega)
  obtain ⟨n, hn⟩ : ∃ n, buildLoopF (initialHeap ft).length (initialHeap ft) = [n] := by
    cases hfin : buildLoopF (initialHeap ft).length (initialHeap ft) with
    | nil => exact absurd hfin hne2
    | cons a t =>
      rw [hfin] at hlen
      simp at hlen
      rw [hlen]
      exact ⟨a, rfl⟩
  unfold build_trie
  rw [hn]
  simp only [popMin]
  rw [hn] at hmem
  rw [heapLeaves_cons] at hmem
  simpa using hmem

lemma build_trie_leaves_lt {ft : Nat → Nat} :
    ∀ b ∈ leafBytes (build_trie ft), b < 256 := by
  intro b hb
  unfold build_trie at hb
  cases hfin : popMin (buildLoopF (initialHeap ft).length (initialHeap ft)) with
  | none =>
    rw [hfin] at hb
    simp only [leafBytes, List.mem_singleton] at hb
    omega
  | some p =>
    obtain ⟨n, hrest⟩ := p
    rw [hfin] at hb
    have hmem : b ∈ heapLeaves (buildLoopF (initialHeap ft).length (initialHeap ft)) := by
      rw [mem_heapLeaves_iff (popMin_perm hfin), heapLeaves_cons]
      simp only [List.mem_append]
      exact Or.inl hb
    rw [buildLoopF_mem] at hmem
    exact initialHeap_sub hmem

/-! ## Frequency table lemmas -/

lemma freq_table_foldl (x : List Nat) :
    ∀ (acc : Nat → Nat) (b : Nat),
      x.foldl (fun counter c => Function.update counter c (counter c + 1)) acc b =
        acc b + x.count b := by
  induction x with
  | nil =>
    intro acc b
    simp
  | cons a x ih =>
    intro acc b
    simp only [List.foldl_cons]
    rw [ih]
    by_cases hab : b = a
    · subst hab
      rw [Function.update_same]
      rw [List.count_cons]
      simp
      omega
    · rw [Function.update_noteq hab]
      rw [List.count_cons]
      have hba : ¬a = b := fun hh => hab hh.symm
      simp [hab, hba]

lemma freq_table_count (x : List Nat) (b : Nat) : freq_table x b = x.count b := by
  unfold freq_table
  rw [freq_table_foldl]
  simp

lemma count_pos_of_mem {x : List Nat} {b : Nat} (h : b ∈ x) : 0 < x.count b :=
  List.count_pos_iff.mpr h

lemma count_cons_ite (a c : Nat) (x : List Nat) :
    (a :: x).count c = x.count c + if c = a then 1 else 0 := by
  by_cases hca : c = a
  · subst hca
    rw [List.count_cons_self]
    simp
  · rw [List.count_cons_of_ne hca]
    simp [hca]

lemma sum_count_eq_length {x : List Nat} (hb : ∀ b ∈ x, b < 256) :
    (∑ b ∈ Finset.range 256, x.count b) = x.length := by
  induction x with
  | nil => simp
  | cons a x ih =>
    have ha : a < 256 := hb a (by simp)
    have ihx := ih (fun c hcx => hb c (by simp [hcx]))
    rw [Finset.sum_congr rfl (fun c _ => count_cons_ite a c x), Finset.sum_add_distrib,
      ihx, Finset.sum_ite_eq' (Finset.range 256) a (fun _ => 1),
      if_pos (Finset.mem_range.mpr ha), List.length_cons]

/-! ## Master compress/extract lemma -/

lemma bitsFromR_new (d : List Nat) : bitsFromR (BitReader.new d) = bufBits d := by
  simp [bitsFromR, BitReader.new]

lemma compress_master {x : List Nat} (hb : ∀ b ∈ x, b < 256) :
    ∃ out r1 r2,
      compress x = .ok out ∧
      read_trie (BitReader.new out) = .ok (eraseFreq (build_trie (freq_table x)), r1) ∧
      r1.read_u32_be = (some (x.length % 4294967296), r2) ∧
      extract out = .ok (x.take (x.length % 4294967296)) := by
  have hcode : ∀ d ∈ x, build_code (build_trie (freq_table x)) d ≠ none := by
    intro d hd hnone
    rw [build_code_none_iff] at hnone
    exact hnone (build_trie_mem_of_pos (hb d hd)
      (by rw [freq_table_count]; exact count_pos_of_mem hd))
  obtain ⟨e1, i1⟩ := wbits_write_trie WInv_new (build_trie (freq_table x))
  rw [wbits_new, List.nil_append] at e1
  obtain ⟨e2, i2⟩ := wbits_write_u32 i1 (x.length % 4294967296)
  obtain ⟨w3, hw3, e3, i3⟩ := writeDataLoop_ok i2 hcode
  have hcompress : compress x = .ok w3.buf := by
    simp only [compress, write_encoded_data]
    rw [hw3]
    rfl
  have hbits : bufBits w3.buf =
      trieBits (build_trie (freq_table x)) ++
        (bitsBE 32 (x.length % 4294967296) ++
          (codeBits (build_code (build_trie (freq_table x))) x ++
            (bufBits w3.buf).drop w3.ix)) := by
    have hd := bufBits_decomp w3 i3
    rw [e3, e2, e1] at hd
    simpa [List.append_assoc] using hd
  have hread := read_trie_of_bits (r := BitReader.new w3.buf)
    (@build_trie_leaves_lt (freq_table x)) (by rw [bitsFromR_new]; exact hbits)
  simp only [BitReader.new, Nat.zero_add] at hread
  have hadv1 : bitsFromR ⟨w3.buf, (trieBits (build_trie (freq_table x))).length⟩ =
      bitsBE 32 (x.length % 4294967296) ++
        (codeBits (build_code (build_trie (freq_table x))) x ++
          (bufBits w3.buf).drop w3.ix) := by
    have ha := bitsFromR_advance (r := BitReader.new w3.buf) (by rw [bitsFromR_new]; exact hbits)
    simpa [BitReader.new, Nat.zero_add] using ha
  have hu32 := read_u32_append (r := ⟨w3.buf, (trieBits (build_trie (freq_table x))).length⟩)
    (A := bitsBE 32 (x.length % 4294967296)) (by simp) hadv1
  rw [valBE_bitsBE] at hu32
  have hmod : x.length % 4294967296 % 2 ^ 32 = x.length % 4294967296 := by
    apply Nat.mod_eq_of_lt
    have h1 : x.length % 4294967296 < 4294967296 := Nat.mod_lt _ (by norm_num)
    have h2 : (2 : Nat) ^ 32 = 4294967296 := by norm_num
    rw [h2]
    exact h1
  rw [hmod] at hu32
  have hadv2 : bitsFromR ⟨w3.buf, (trieBits (build_trie (freq_table x))).length + 32⟩ =
      codeBits (build_code (build_trie (freq_table x))) x ++
        (bufBits w3.buf).drop w3.ix := by
    have ha := bitsFromR_advance
      (r := ⟨w3.buf, (trieBits (build_trie (freq_table x))).length⟩) hadv1
    simpa using ha
  have hentries : ∀ d ∈ x, ∃ p, build_code (build_trie (freq_table x)) d = some p ∧
      leadsTo (eraseFreq (build_trie (freq_table x))) p d := by
    intro d hd
    obtain ⟨p, hp⟩ := Option.ne_none_iff_exists'.mp (hcode d hd)
    exact ⟨p, hp, leadsTo_eraseFreq (build_code_leadsTo hp)⟩
  obtain ⟨rfin, hloop⟩ := decodeLoop_take (x.length % 4294967296) x
    ⟨w3.buf, (trieBits (build_trie (freq_table x))).length + 32⟩
    ((bufBits w3.buf).drop w3.ix) (Nat.mod_le _ _) hentries hadv2
  have hextract : extract w3.buf = .ok (x.take (x.length % 4294967296)) := by
    simp only [extract, BitReader.new, hread]
    simp only [read_decoded_data, hu32, hloop]
  exact ⟨w3.buf, _, _, hcompress, hread, hu32, hextract⟩

lemma sameShape_eraseFreq (t : Node) : sameShape (eraseFreq t) t = true := by
  induction t with
  | leaf b f => simp [eraseFreq, sameShape]
  | internal nb nf l r ihl ihr => simp [eraseFreq, sameShape, ihl, ihr]

/-! ## Claim theorems -/

/-- Claim C1, amended: the round trip `extract (compress x) = x` holds for
every byte sequence `x` (bytes `< 256`, as guaranteed by the Rust `u8` type)
whose length is below `2^32`; the `data.len() as u32` cast in
`write_encoded_data` truncates longer lengths, so the unrestricted claim
fails (see the counterexample). -/
theorem c1_round_trip_identity (x : List Nat) (hb : ∀ b ∈ x, b < 256)
    (hlen : x.length < 4294967296) :
    ∃ out, compress x = PanicOr.ok out ∧ extract out = PanicOr.ok x := by
  obtain ⟨out, r1, r2, hc, -, -, he⟩ := compress_master hb
  refine ⟨out, hc, ?_⟩
  rw [he, Nat.mod_eq_of_lt hlen, List.take_length]

theorem c1_round_trip_identity_witness :
    (∀ b ∈ ([97, 98, 114, 97, 99] : List Nat), b < 256) ∧
    ([97, 98, 114, 97, 99] : List Nat).length < 4294967296 ∧
    ∃ out, compress [97, 98, 114, 97, 99] = PanicOr.ok out ∧
      extract out = PanicOr.ok [97, 98, 114, 97, 99] :=
  ⟨by decide, by decide, c1_round_trip_identity [97, 98, 114, 97, 99] (by decide) (by decide)⟩

/-- Claim C1, counterexample: for the input of `2^32` zero bytes the
`as u32` cast wraps the length field to 0, so `extract (compress x)`
returns `[]`, not the original sequence: the unrestricted round-trip claim
is false. -/
theorem c1_round_trip_counterexample :
    PanicOr.bind (compress (List.replicate 4294967296 0)) extract =
      PanicOr.ok ([] : List Nat) ∧
    PanicOr.bind (compress (List.replicate 4294967296 0)) extract ≠
      PanicOr.ok (List.replicate 4294967296 0) := by
  obtain ⟨out, r1, r2, hc, -, -, he⟩ := compress_master (x := List.replicate 4294967296 0)
    (fun b hb => by rw [List.eq_of_mem_replicate hb]; norm_num)
  rw [List.length_replicate, Nat.mod_self, List.take_zero] at he
  rw [hc]
  have hbind : PanicOr.bind (PanicOr.ok out) extract = extract out := rfl
  rw [hbind, he]
  refine ⟨rfl, ?_⟩
  intro hcontra
  have h2 := PanicOr.ok.inj hcontra
  have h3 := congrArg List.length h2
  rw [List.length_replicate, List.length_nil] at h3
  exact absurd h3 (by norm_num)

/-- Claim C2, counterexample: on the empty (truncated) stream, `extract`
does not return a recoverable error result — it aborts via the `expect`
panic in `read_trie` (`PanicOr.panic` models the Rust panic; `extract` has
no error channel in its signature at all). -/
theorem c2_corrupt_stream_counterexample :
    extract [] = PanicOr.panic "read_trie: cant decode node type" := by
  decide

/-- Claim C2, amended: on a truncated bit stream `extract` aborts the
process with a panic (from `expect`) instead of returning a recoverable
error result; it never silently yields a truncated byte sequence: whenever
`extract` returns normally, the returned sequence has exactly the length
declared in the 4-byte size field of the stream. -/
theorem c2_extract_no_silent_truncation :
    ∀ (data ys : List Nat), extract data = PanicOr.ok ys →
      ∃ trie r1 r2 size, read_trie (BitReader.new data) = PanicOr.ok (trie, r1) ∧
        r1.read_u32_be = (some size, r2) ∧ ys.length = size := by
  intro data ys h
  unfold extract at h
  cases hrt : read_trie (BitReader.new data) with
  | panic m =>
    rw [hrt] at h
    exact PanicOr.noConfusion h
  | ok p =>
    obtain ⟨trie, r1⟩ := p
    rw [hrt] at h
    dsimp only at h
    unfold read_decoded_data at h
    cases hu : r1.read_u32_be with
    | mk o r2 =>
      rw [hu] at h
      cases o with
      | none =>
        dsimp only at h
        exact PanicOr.noConfusion h
      | some size =>
        dsimp only at h
        cases hdl : decodeLoop r2 trie size with
        | panic m =>
          rw [hdl] at h
          exact PanicOr.noConfusion h
        | ok q =>
          obtain ⟨bs, r3⟩ := q
          rw [hdl] at h
          dsimp only at h
          have hbs : bs = ys := by simpa using h
          refine ⟨trie, r1, r2, size, rfl, hu, ?_⟩
          rw [← hbs]
          exact decodeLoop_length hdl

theorem c2_extract_no_silent_truncation_witness :
    extract [128, 0, 0, 0, 0, 0] = PanicOr.ok ([] : List Nat) ∧
    ∃ trie r1 r2 size,
      read_trie (BitReader.new [128, 0, 0, 0, 0, 0]) = PanicOr.ok (trie, r1) ∧
      r1.read_u32_be = (some size, r2) ∧ ([] : List Nat).length = size :=
  ⟨by decide, c2_extract_no_silent_truncation [128, 0, 0, 0, 0, 0] [] (by decide)⟩

/-- Claim C3: `compress` writes the original length as `len(x) mod 2^32`
(the `as u32` cast); the field read back after the trie equals
`len(x) mod 2^32` (hence `len(x)` exactly when `len(x) < 2^32`), and
`extract` of the compressed stream decodes exactly `len(x) mod 2^32`
symbols (the first `len(x) mod 2^32` bytes of `x`). -/
theorem c3_length_field_mod_u32 (x : List Nat) (hb : ∀ b ∈ x, b < 256) :
    ∃ out t r1 r2 ys,
      compress x = PanicOr.ok out ∧
      read_trie (BitReader.new out) = PanicOr.ok (t, r1) ∧
      r1.read_u32_be = (some (x.length % 4294967296), r2) ∧
      (x.length < 4294967296 → r1.read_u32_be = (some x.length, r2)) ∧
      extract out = PanicOr.ok ys ∧
      ys = x.take (x.length % 4294967296) ∧
      ys.length = x.length % 4294967296 := by
  obtain ⟨out, r1, r2, hc, hr, hu, he⟩ := compress_master hb
  refine ⟨out, _, r1, r2, _, hc, hr, hu, ?_, he, rfl, ?_⟩
  · intro hlt
    have hu2 := hu
    rw [Nat.mod_eq_of_lt hlt] at hu2
    exact hu2
  · rw [List.length_take]
    exact Nat.min_eq_left (Nat.mod_le _ _)

theorem c3_length_field_mod_u32_witness :
    (∀ b ∈ ([7, 7, 8] : List Nat), b < 256) ∧
    ∃ out t r1 r2 ys,
      compress [7, 7, 8] = PanicOr.ok out ∧
      read_trie (BitReader.new out) = PanicOr.ok (t, r1) ∧
      r1.read_u32_be = (some (([7, 7, 8] : List Nat).length % 4294967296), r2) ∧
      (([7, 7, 8] : List Nat).length < 4294967296 →
        r1.read_u32_be = (some ([7, 7, 8] : List Nat).length, r2)) ∧
      extract out = PanicOr.ok ys ∧
      ys = ([7, 7, 8] : List Nat).take (([7, 7, 8] : List Nat).length % 4294967296) ∧
      ys.length = ([7, 7, 8] : List Nat).length % 4294967296 :=
  ⟨by decide, c3_length_field_mod_u32 [7, 7, 8] (by decide)⟩

/-- Claim C4: deserializing the serialization of any trie (leaf byte values
`< 256`, as `u8` guarantees) yields a structurally equivalent tree — the
same shape with the same leaf bytes (frequencies are not transmitted, so
the reconstructed tree is `eraseFreq t`). -/
theorem c4_trie_serialization_round_trip (t : Node)
    (hlt : ∀ b ∈ leafBytes t, b < 256) :
    ∃ t' r', read_trie (BitReader.new (write_trie BitWriter.new t).dump) =
        PanicOr.ok (t', r') ∧
      t' = eraseFreq t ∧ sameShape t' t = true := by
  obtain ⟨e1, i1⟩ := wbits_write_trie WInv_new t
  rw [wbits_new, List.nil_append] at e1
  have hbits : bitsFromR (BitReader.new (write_trie BitWriter.new t).dump) =
      trieBits t ++ (bufBits (write_trie BitWriter.new t).buf).drop
        (write_trie BitWriter.new t).ix := by
    rw [bitsFromR_new]
    have hd := bufBits_decomp _ i1
    rw [e1] at hd
    exact hd
  have hread := read_trie_of_bits hlt hbits
  exact ⟨_, _, hread, rfl, sameShape_eraseFreq t⟩

theorem c4_trie_serialization_round_trip_witness :
    (∀ b ∈ leafBytes (Node.internal 3 9 (Node.leaf 97 5) (Node.leaf 98 4)), b < 256) ∧
    ∃ t' r', read_trie (BitReader.new (write_trie BitWriter.new
        (Node.internal 3 9 (Node.leaf 97 5) (Node.leaf 98 4))).dump) =
        PanicOr.ok (t', r') ∧
      t' = eraseFreq (Node.internal 3 9 (Node.leaf 97 5) (Node.leaf 98 4)) ∧
      sameShape t' (Node.internal 3 9 (Node.leaf 97 5) (Node.leaf 98 4)) = true :=
  ⟨by decide, c4_trie_serialization_round_trip _ (by decide)⟩

/-- Claim C5: in the code table built from a `build_trie` trie, the code of
one byte value is never a proper prefix of the code of a different byte
value, and an entry is present exactly for the byte values appearing as
leaves of the trie. -/
theorem c5_prefix_free_codes (ft : Nat → Nat) :
    (∀ b1 b2 p1 p2, b1 ≠ b2 →
      build_code (build_trie ft) b1 = some p1 →
      build_code (build_trie ft) b2 = some p2 →
      ¬(p1 <+: p2 ∧ p1 ≠ p2)) ∧
    (∀ b, (build_code (build_trie ft) b ≠ none) ↔ b ∈ leafBytes (build_trie ft)) := by
  constructor
  · rintro b1 b2 p1 p2 hne h1 h2 ⟨hpre, -⟩
    obtain ⟨-, hd⟩ := leadsTo_no_nested (build_code_leadsTo h1) (build_code_leadsTo h2) hpre
    exact hne hd
  · intro b
    have hni := @build_code_none_iff (build_trie ft) b
    constructor
    · intro h
      by_contra hmem
      exact h (hni.mpr hmem)
    · intro hmem h
      exact (hni.mp h) hmem

theorem c5_prefix_free_codes_witness :
    (0 : Nat) ≠ 1 ∧
    build_code (build_trie (fun b => if b < 2 then 1 else 0)) 0 = some [0] ∧
    build_code (build_trie (fun b => if b < 2 then 1 else 0)) 1 = some [1] ∧
    ¬(([0] : List Nat) <+: [1] ∧ ([0] : List Nat) ≠ [1]) ∧
    ((build_code (build_trie (fun b => if b < 2 then 1 else 0)) 0 ≠ none) ↔
      0 ∈ leafBytes (build_trie (fun b => if b < 2 then 1 else 0))) :=
  ⟨by decide, by decide, by decide,
    (c5_prefix_free_codes (fun b => if b < 2 then 1 else 0)).1 0 1 [0] [1]
      (by decide) (by decide) (by decide),
    (c5_prefix_free_codes (fun b => if b < 2 then 1 else 0)).2 0⟩

set_option maxRecDepth 10000 in
/-- Claim C6: on an all-zero frequency table `build_trie` returns the
placeholder leaf (byte 0, frequency 0); `compress []` produces the valid
six-byte stream holding that placeholder-leaf trie followed by the 32-bit
length 0, and `extract` of that stream returns the empty sequence. -/
theorem c6_empty_input :
    build_trie (fun _ => 0) = Node.leaf 0 0 ∧
    compress [] = PanicOr.ok [128, 0, 0, 0, 0, 0] ∧
    extract [128, 0, 0, 0, 0, 0] = PanicOr.ok ([] : List Nat) :=
  ⟨by decide, by decide, by decide⟩

/-- Claim C7: `read_bits n` (for `n ≤ 8`) returns the next `n` bits of the
stream packed most-significant-first when at least `n` bits remain and
signals exhaustion (`none`) when fewer remain; `read_bit` reads bit
`7 - ix % 8` (bit 7 first, down to bit 0) of byte `ix / 8`; `read_u32_be`
assembles four `read_bits 8` results big-endian (i.e. the next 32 bits,
most significant first) and signals exhaustion when fewer than 32 bits
remain. -/
theorem c7_bit_reader_semantics :
    (∀ (r : BitReader) (n : Nat), n ≤ 8 → n ≤ (bitsFromR r).length →
        r.read_bits n = (some (valBE ((bitsFromR r).take n)), ⟨r.data, r.ix + n⟩)) ∧
    (∀ (r : BitReader) (n : Nat), n ≤ 8 → (bitsFromR r).length < n →
        (r.read_bits n).1 = none) ∧
    (∀ r : BitReader, r.ix < 8 * r.data.length →
        r.read_bit = (some ((r.data.getD (r.ix / 8) 0).testBit (7 - r.ix % 8)),
          ⟨r.data, r.ix + 1⟩)) ∧
    (∀ r : BitReader, 8 * r.data.length ≤ r.ix → (r.read_bit).1 = none) ∧
    (∀ r : BitReader, 32 ≤ (bitsFromR r).length →
        r.read_u32_be = (some (valBE ((bitsFromR r).take 32)), ⟨r.data, r.ix + 32⟩)) ∧
    (∀ r : BitReader, r.ix ≤ 8 * r.data.length → (bitsFromR r).length < 32 →
        (r.read_u32_be).1 = none) := by
  refine ⟨?_, ?_, ?_, ?_, ?_, ?_⟩
  · intro r n _ hlen
    exact read_bits_eq_some hlen
  · intro r n _ hlen
    by_cases hix : r.ix ≤ 8 * r.data.length
    · rw [read_bits_none hix hlen]
    · cases n with
      | zero => omega
      | succ n =>
        have hnone := read_bit_eq_none r (by omega)
        simp [BitReader.read_bits, BitReader.read_bits_go, hnone]
  · intro r h
    have := read_bit_eq_some r h
    simpa [bitAt] using this
  · intro r h
    rw [read_bit_eq_none r h]
  · intro r hlen
    have hsplit := (List.take_append_drop 32 (bitsFromR r)).symm
    have hlen32 : ((bitsFromR r).take 32).length = 32 := by
      simp [Nat.min_eq_left hlen]
    exact read_u32_append hlen32 hsplit
  · intro r hix hlen
    rw [read_u32_none hix hlen]

theorem c7_bit_reader_semantics_witness :
    (3 : Nat) ≤ 8 ∧ 3 ≤ (bitsFromR ⟨[176], 0⟩).length ∧
    BitReader.read_bits ⟨[176], 0⟩ 3 =
      (some (valBE ((bitsFromR ⟨[176], 0⟩).take 3)), ⟨[176], 0 + 3⟩) :=
  ⟨by decide, by decide,
    c7_bit_reader_semantics.1 ⟨[176], 0⟩ 3 (by decide) (by decide)⟩

/-- Claim C8: `freq_table` maps every byte value to its number of
occurrences in the input, and the 256 counts sum to the input length. -/
theorem c8_frequency_conservation (x : List Nat) (hb : ∀ b ∈ x, b < 256) :
    (∀ b, freq_table x b = x.count b) ∧
    (∑ b ∈ Finset.range 256, freq_table x b) = x.length := by
  refine ⟨freq_table_count x, ?_⟩
  rw [Finset.sum_congr rfl (fun b _ => freq_table_count x b)]
  exact sum_count_eq_length hb

theorem c8_frequency_conservation_witness :
    (∀ b ∈ ([1, 2, 1] : List Nat), b < 256) ∧
    (∀ b, freq_table [1, 2, 1] b = ([1, 2, 1] : List Nat).count b) ∧
    (∑ b ∈ Finset.range 256, freq_table [1, 2, 1] b) = ([1, 2, 1] : List Nat).length :=
  ⟨by decide, c8_frequency_conservation [1, 2, 1] (by decide)⟩

/-- Claim C9: reader exhaustion is not atomic — when `read_bits` or
`read_u32_be` returns `none` (from any position inside the stream), the
bits that were available have been consumed: the reader is left at the end
of the stream (`ix = 8 * data.length`), not restored. -/
theorem c9_exhaustion_not_atomic (r : BitReader)
    (hix : r.ix ≤ 8 * r.data.length) :
    (∀ n, (r.read_bits n).1 = none →
      (r.read_bits n).2 = ⟨r.data, 8 * r.data.length⟩) ∧
    ((r.read_u32_be).1 = none →
      (r.read_u32_be).2 = ⟨r.data, 8 * r.data.length⟩) := by
  constructor
  · intro n hnone
    by_cases hlen : n ≤ (bitsFromR r).length
    · rw [read_bits_eq_some hlen] at hnone
      simp at hnone
    · rw [read_bits_none hix (by omega)]
  · intro hnone
    by_cases hlen : 32 ≤ (bitsFromR r).length
    · have hsplit := (List.take_append_drop 32 (bitsFromR r)).symm
      have hlen32 : ((bitsFromR r).take 32).length = 32 := by
        simp [Nat.min_eq_left hlen]
      rw [read_u32_append hlen32 hsplit] at hnone
      simp at hnone
    · rw [read_u32_none hix (by omega)]

theorem c9_exhaustion_not_atomic_witness :
    (4 : Nat) ≤ 8 * ([7] : List Nat).length ∧
    (BitReader.read_bits ⟨[7], 4⟩ 8).1 = none ∧
    (BitReader.read_bits ⟨[7], 4⟩ 8).2 = ⟨[7], 8 * ([7] : List Nat).length⟩ :=
  ⟨by decide, by decide,
    (c9_exhaustion_not_atomic ⟨[7], 4⟩ (by decide)).1 8 (by decide)⟩

/-- Claim C10: `read_trie` terminates on every finite input: the
fuel-indexed transcription `read_trie_fuel` gives the same result for every
fuel exceeding the number of remaining bits (so the embedding `read_trie`
is its fixpoint), because each recursive call is made only after at least
one bit has been consumed — on success the position strictly increases and
stays within the stream. -/
theorem c10_read_trie_terminates :
    (∀ (fuel : Nat) (r : BitReader), 8 * r.data.length - r.ix < fuel →
        read_trie_fuel fuel r = read_trie r) ∧
    (∀ (fuel : Nat) (r : BitReader) (t : Node) (r' : BitReader),
        read_trie_fuel fuel r = PanicOr.ok (t, r') →
        r'.data = r.data ∧ r.ix < r'.ix ∧ r'.ix ≤ 8 * r.data.length) :=
  ⟨fun _ _ h => read_trie_fuel_eq h, fun _ _ _ _ h => read_trie_fuel_progress h⟩

theorem c10_read_trie_terminates_witness :
    8 * ([128, 0] : List Nat).length - 0 < 50 ∧
    read_trie_fuel 50 ⟨[128, 0], 0⟩ = read_trie ⟨[128, 0], 0⟩ :=
  ⟨by decide, c10_read_trie_terminates.1 50 ⟨[128, 0], 0⟩ (by decide)⟩

end Huffman
